import Mathlib

/-!
Verification development for the buffered stream I/O layer of this repository.

The repository's documents describe a fixed-capacity buffered writer and
reader (with `Peek`, `ReadSlice`, `ReadLine`), a line-splitting `Scanner`,
and a synchronous rendezvous pipe.  The repository itself only contains
tutorial call sites of that layer; the layer's own code is not among the
source files, so every operation below is modelled from the specification
text and settled against that model.

Bytes are modelled as natural numbers; a source is the list of bytes it has
yet to produce, and a sink is the list of the byte chunks written to it so
far (one list entry per sink-write call).
-/

/-- Modelled from the spec: the error taxonomy (spec §7) of the buffered
I/O layer, restricted to the two recoverable conditions the claims use:
`endOfStream` (clean exhaustion of the source) and `bufferFull`
(a request the fixed-capacity buffer can never satisfy). -/
inductive StreamErr where
  | endOfStream
  | bufferFull
deriving DecidableEq, Repr

/-- Modelled from the spec: the state of the fixed-capacity buffered reader
(spec §4.2); `cap` is the buffer capacity, `buf` the unconsumed bytes
currently buffered, and `src` the bytes the underlying source has yet to
produce.  The read/write cursors and compaction of the concrete buffer are
represented by keeping only the unconsumed window `buf`. -/
structure BufReader where
  cap : Nat
  buf : List Nat
  src : List Nat
deriving DecidableEq, Repr

/-- All bytes still reachable through the reader: buffered bytes followed by
the bytes the source has yet to produce. -/
def BufReader.avail (st : BufReader) : List Nat := st.buf ++ st.src

/-- Modelled from the spec: the refill policy (spec §4.2) — one source read
sized to fill the remaining buffer capacity. -/
def BufReader.fill (st : BufReader) : BufReader :=
  { st with
      buf := st.buf ++ st.src.take (st.cap - st.buf.length),
      src := st.src.drop (st.cap - st.buf.length) }

/-- Index of the first occurrence of byte `d` in `l`, if any. -/
def firstIdx (d : Nat) : List Nat → Option Nat
  | [] => none
  | x :: xs => if x = d then some 0 else (firstIdx d xs).map (· + 1)

/-- Modelled from the spec: `Peek n` (spec §4.2 op 1).  The buffer is first
refilled; if `n` exceeds the capacity the call fails with `bufferFull`
(returning the filled buffer), if at least `n` bytes are buffered the first
`n` are returned, and otherwise the exhausted source forces `endOfStream`
with whatever bytes were available.  The read cursor never advances. -/
def BufReader.Peek (st : BufReader) (n : Nat) :
    (List Nat × Option StreamErr) × BufReader :=
  let st1 := st.fill
  if st.cap < n then ((st1.buf, some StreamErr.bufferFull), st1)
  else if n ≤ st1.buf.length then ((st1.buf.take n, none), st1)
  else ((st1.buf, some StreamErr.endOfStream), st1)

/-- Modelled from the spec: `ReadSlice delim` (spec §4.2 op 2).  The buffer
is refilled and scanned for the delimiter; on a hit the inclusive slice is
returned and consumed; with no hit a full buffer yields `bufferFull`
(returning and consuming all buffered bytes, so the caller can resume),
and an exhausted source yields `endOfStream` with the remaining bytes. -/
def BufReader.ReadSlice (st : BufReader) (d : Nat) :
    (List Nat × Option StreamErr) × BufReader :=
  let st1 := st.fill
  match firstIdx d st1.buf with
  | some i => ((st1.buf.take (i + 1), none), { st1 with buf := st1.buf.drop (i + 1) })
  | none =>
      if st1.buf.length = st1.cap then
        ((st1.buf, some StreamErr.bufferFull), { st1 with buf := [] })
      else
        ((st1.buf, some StreamErr.endOfStream), { st1 with buf := [] })

/-- Length of `l` once a trailing LF or CRLF has been stripped. -/
def dropNLlen (l : List Nat) : Nat :=
  if l.getLast? = some 10 then
    if l.dropLast.getLast? = some 13 then l.length - 2 else l.length - 1
  else l.length

/-- Strip a trailing `"\n"` or `"\r\n"` from `l`; all other bytes are kept. -/
def dropNL (l : List Nat) : List Nat := l.take (dropNLlen l)

/-- The terminator that `dropNL` strips: `""`, `"\n"` or `"\r\n"`. -/
def lineTerm (l : List Nat) : List Nat := l.drop (dropNLlen l)

/-- Modelled from the spec: `ReadLine` (spec §4.2 op 3) — `ReadSlice '\n'`
with the trailing `"\n"` or `"\r\n"` stripped, plus a flag (the `isPrefix`
result, second component) that is true exactly when the line did not
terminate within buffer capacity; the `bufferFull` condition is reported
through that flag rather than as an error. -/
def BufReader.ReadLine (st : BufReader) :
    (List Nat × Bool × Option StreamErr) × BufReader :=
  let r := st.ReadSlice 10
  ((dropNL r.1.1,
    (match r.1.2 with
     | some StreamErr.bufferFull => true
     | _ => false),
    (match r.1.2 with
     | some StreamErr.endOfStream => some StreamErr.endOfStream
     | _ => none)), r.2)

/-- Driver loop that re-invokes `ReadSlice` after every successful token and
also after a recoverable `bufferFull` partial result, stopping only at
`endOfStream` (or when the fuel runs out); it collects every returned
slice. -/
def readSliceLoop (d : Nat) : Nat → BufReader → List (List Nat)
  | 0, _ => []
  | fuel + 1, st =>
    let r := st.ReadSlice d
    if r.1.2 = some StreamErr.endOfStream then [r.1.1]
    else r.1.1 :: readSliceLoop d fuel r.2

/-- Driver loop that re-invokes `ReadSlice` only while no error occurs and
stops at the first error of either kind, collecting every returned slice
(the successful tokens plus the final partial result). -/
def readSliceLoopStrict (d : Nat) : Nat → BufReader → List (List Nat)
  | 0, _ => []
  | fuel + 1, st =>
    let r := st.ReadSlice d
    if r.1.2 = none then r.1.1 :: readSliceLoopStrict d fuel r.2
    else [r.1.1]

/-- Driver loop for `ReadLine`: each step performs the underlying
`ReadSlice '\n'` and records the stripped line together with the stripped
terminator, stopping at `endOfStream`. -/
def readLineLoop : Nat → BufReader → List (List Nat × List Nat)
  | 0, _ => []
  | fuel + 1, st =>
    let r := st.ReadSlice 10
    if r.1.2 = some StreamErr.endOfStream then [(dropNL r.1.1, lineTerm r.1.1)]
    else (dropNL r.1.1, lineTerm r.1.1) :: readLineLoop fuel r.2

/-- Modelled from the spec: the state of the fixed-capacity buffered writer
(spec §4.1); `buf` holds the bytes accumulated but not yet written to the
sink, and `sinkCalls` logs every sink-write call issued so far, in order,
one list entry per call. -/
structure BufWriter where
  cap : Nat
  buf : List Nat
  sinkCalls : List (List Nat)
deriving DecidableEq, Repr

/-- Modelled from the spec: `Flush` (spec §4.1) — if the buffer is
non-empty, exactly one sink write of its full contents, then the buffer is
emptied; a no-op on an empty buffer. -/
def BufWriter.Flush (w : BufWriter) : BufWriter :=
  if w.buf = [] then w else { w with buf := [], sinkCalls := w.sinkCalls ++ [w.buf] }

/-- Modelled from the spec: `Write` (spec §4.1).  A payload larger than the
capacity flushes any pending bytes and then goes directly to the sink,
bypassing the buffer; a payload that fits in the remaining space is
buffered with no sink call; otherwise the buffer is flushed first and the
payload is then buffered. -/
def BufWriter.Write (w : BufWriter) (bs : List Nat) : BufWriter :=
  if w.cap < bs.length then
    let w1 := w.Flush
    { w1 with sinkCalls := w1.sinkCalls ++ [bs] }
  else if bs.length ≤ w.cap - w.buf.length then
    { w with buf := w.buf ++ bs }
  else
    { w.Flush with buf := bs }

/-- Perform a sequence of `Write` calls in order. -/
def BufWriter.writeAll (w : BufWriter) : List (List Nat) → BufWriter
  | [] => w
  | bs :: rest => (w.Write bs).writeAll rest

/-- A fresh buffered writer of capacity `c` with an empty sink log. -/
def mkWriter (c : Nat) : BufWriter := ⟨c, [], []⟩

/-- Trim one trailing CR byte, as the default line split does. -/
def dropCR (l : List Nat) : List Nat :=
  if l.getLast? = some 13 then l.dropLast else l

/-- Modelled from the spec: the Scanner's default split function
(spec §4.3) — break on `'\n'` consuming the delimiter, trim a trailing
`'\r'` from the token; at exhaustion emit the remaining bytes as a final
token, and report completion on empty data at exhaustion. -/
def scanLinesSplit (data : List Nat) (atEOF : Bool) : Option (Nat × List Nat) :=
  if atEOF = true ∧ data = [] then none
  else
    match firstIdx 10 data with
    | some i => some (i + 1, dropCR (data.take i))
    | none => if atEOF then some (data.length, dropCR data) else none

/-- Modelled from the spec: the Scanner driver (spec §4.3) — repeatedly
apply the split function and advance by the returned amount until it
signals completion.  Since the Scanner's growable buffer eventually holds
all remaining input, each split decision is taken over the full remaining
data with the exhaustion flag set. -/
def scanAll : Nat → List Nat → List (List Nat)
  | 0, _ => []
  | fuel + 1, data =>
    match scanLinesSplit data true with
    | none => []
    | some (k, tok) => tok :: scanAll fuel (data.drop k)

/-- Reference description of line boundaries, following the spec's words:
the segments of the input strictly between `'\n'` bytes, the final segment
appearing only when non-empty (untrimmed). -/
def linesOf : Nat → List Nat → List (List Nat)
  | 0, _ => []
  | fuel + 1, data =>
    if data = [] then []
    else
      match firstIdx 10 data with
      | some i => data.take i :: linesOf fuel (data.drop (i + 1))
      | none => [data]

/-- Modelled from the spec: the synchronous pipe (spec §4.4) delivering one
write's payload to a sequence of reads.  There is no internal buffer: the
single in-flight write's still-undelivered bytes are handed to each read
call in order, each read taking at most its requested chunk size. -/
def pipeReads : List Nat → List Nat → List (List Nat)
  | _, [] => []
  | data, c :: cs => data.take c :: pipeReads (data.drop c) cs

/-! ### Basic facts about `firstIdx` -/

theorem firstIdx_cons_pos {d x : Nat} {xs : List Nat} (hx : x = d) :
    firstIdx d (x :: xs) = some 0 := by
  simp [firstIdx, hx]

theorem firstIdx_cons_neg {d x : Nat} {xs : List Nat} (hx : ¬ x = d) :
    firstIdx d (x :: xs) = (firstIdx d xs).map (· + 1) := by
  simp [firstIdx, hx]

theorem firstIdx_bound {d : Nat} :
    ∀ {l : List Nat} {i : Nat}, firstIdx d l = some i → i < l.length := by
  intro l
  induction l with
  | nil => intro i h; simp [firstIdx] at h
  | cons x xs ih =>
    intro i h
    by_cases hx : x = d
    · rw [firstIdx_cons_pos hx] at h
      have : i = 0 := (Option.some_inj.mp h).symm
      subst this
      simp
    · rw [firstIdx_cons_neg hx, Option.map_eq_some'] at h
      obtain ⟨j, hj, rfl⟩ := h
      have := ih hj
      simp
      omega

theorem firstIdx_none_not_mem {d : Nat} :
    ∀ {l : List Nat}, firstIdx d l = none → d ∉ l := by
  intro l
  induction l with
  | nil => intro _; simp
  | cons x xs ih =>
    intro h
    by_cases hx : x = d
    · rw [firstIdx_cons_pos hx] at h
      exact absurd h (by simp)
    · rw [firstIdx_cons_neg hx, Option.map_eq_none'] at h
      intro hmem
      rcases List.mem_cons.mp hmem with hc | hmem2
      · exact hx hc.symm
      · exact ih h hmem2

theorem firstIdx_of_not_mem {d : Nat} :
    ∀ {l : List Nat}, d ∉ l → firstIdx d l = none := by
  intro l
  induction l with
  | nil => intro _; rfl
  | cons x xs ih =>
    intro h
    have hx : ¬ x = d := fun hc => h (by simp [hc])
    have hxs : d ∉ xs := fun hc => h (List.mem_cons_of_mem x hc)
    rw [firstIdx_cons_neg hx, ih hxs]
    rfl

theorem firstIdx_not_mem_take {d : Nat} :
    ∀ {l : List Nat} {i : Nat}, firstIdx d l = some i → d ∉ l.take i := by
  intro l
  induction l with
  | nil => intro i h; simp [firstIdx] at h
  | cons x xs ih =>
    intro i h
    by_cases hx : x = d
    · rw [firstIdx_cons_pos hx] at h
      have : i = 0 := (Option.some_inj.mp h).symm
      subst this
      simp
    · rw [firstIdx_cons_neg hx, Option.map_eq_some'] at h
      obtain ⟨j, hj, rfl⟩ := h
      rw [List.take_succ_cons]
      intro hmem
      rcases List.mem_cons.mp hmem with hc | hmem2
      · exact hx hc.symm
      · exact ih hj hmem2

theorem firstIdx_mem {d : Nat} :
    ∀ {l : List Nat} {i : Nat}, firstIdx d l = some i → d ∈ l := by
  intro l
  induction l with
  | nil => intro i h; simp [firstIdx] at h
  | cons x xs ih =>
    intro i h
    by_cases hx : x = d
    · simp [hx]
    · rw [firstIdx_cons_neg hx, Option.map_eq_some'] at h
      obtain ⟨j, hj, _⟩ := h
      exact List.mem_cons_of_mem x (ih hj)

/-! ### Facts about `fill` -/

theorem avail_fill (st : BufReader) : st.fill.avail = st.avail := by
  cases st with
  | mk c b s =>
    simp [BufReader.fill, BufReader.avail, List.append_assoc]

theorem fill_eq (st : BufReader) (h : st.buf.length ≤ st.cap) :
    st.fill = ⟨st.cap, st.avail.take st.cap, st.avail.drop st.cap⟩ := by
  cases st with
  | mk c b s =>
    simp only [BufReader.avail] at *
    simp only [BufReader.fill, BufReader.mk.injEq, true_and]
    constructor
    · rw [List.take_append_eq_append_take, List.take_of_length_le h]
    · rw [List.drop_append_eq_append_drop, List.drop_of_length_le h, List.nil_append]

theorem fill_idem (st : BufReader) (h : st.buf.length ≤ st.cap) :
    st.fill.fill = st.fill := by
  rw [fill_eq st h]
  have h2 : (BufReader.mk st.cap (st.avail.take st.cap) (st.avail.drop st.cap)).buf.length ≤ st.cap := by
    simp
  rw [fill_eq _ h2]
  have ha : (BufReader.mk st.cap (st.avail.take st.cap) (st.avail.drop st.cap)).avail = st.avail := by
    simp [BufReader.avail]
  rw [ha]

/-- Full characterization of `ReadSlice` over a state whose buffered bytes
fit the capacity, stated purely in terms of the reachable byte sequence. -/
theorem ReadSlice_eq (st : BufReader) (d : Nat) (hb : st.buf.length ≤ st.cap) :
    st.ReadSlice d =
      match firstIdx d (st.avail.take st.cap) with
      | some i =>
          ((st.avail.take (i + 1), none),
           ⟨st.cap, (st.avail.take st.cap).drop (i + 1), st.avail.drop st.cap⟩)
      | none =>
          if (st.avail.take st.cap).length = st.cap then
            ((st.avail.take st.cap, some StreamErr.bufferFull),
             ⟨st.cap, [], st.avail.drop st.cap⟩)
          else
            ((st.avail.take st.cap, some StreamErr.endOfStream),
             ⟨st.cap, [], st.avail.drop st.cap⟩) := by
  unfold BufReader.ReadSlice
  rw [fill_eq st hb]
  cases hf : firstIdx d (st.avail.take st.cap) with
  | some i =>
    have hib : i < (st.avail.take st.cap).length := firstIdx_bound hf
    have hic : i + 1 ≤ st.cap := by
      have := List.length_take_le st.cap st.avail
      omega
    simp only [hf]
    rw [List.take_take, Nat.min_eq_left hic]
  | none =>
    simp only [hf]

theorem drop_take_append_drop (A : List Nat) (c k : Nat) (h : k ≤ c) :
    (A.take c).drop k ++ A.drop c = A.drop k := by
  rw [List.drop_take]
  have hd : A.drop c = (A.drop k).drop (c - k) := by
    rw [List.drop_drop]
    congr 1
    omega
  rw [hd, List.take_append_drop]

theorem readSliceLoop_flatten (d : Nat) :
    ∀ (fuel : Nat) (st : BufReader), st.buf.length ≤ st.cap → 0 < st.cap →
      st.avail.length < fuel →
      (readSliceLoop d fuel st).flatten = st.avail := by
  intro fuel
  induction fuel with
  | zero => intro st _ _ h; exact absurd h (Nat.not_lt_zero _)
  | succ f ih =>
    intro st hb hc hlen
    simp only [readSliceLoop]
    rw [ReadSlice_eq st d hb]
    cases hf : firstIdx d (st.avail.take st.cap) with
    | some i =>
      simp only [hf]
      rw [if_neg (by simp)]
      have hib : i < (st.avail.take st.cap).length := firstIdx_bound hf
      have htc : (st.avail.take st.cap).length ≤ st.cap := List.length_take_le _ _
      have htA : (st.avail.take st.cap).length ≤ st.avail.length := List.length_take_le' _ _
      have hic : i + 1 ≤ st.cap := by omega
      have havail :
          (BufReader.mk st.cap ((st.avail.take st.cap).drop (i + 1)) (st.avail.drop st.cap)).avail
            = st.avail.drop (i + 1) := by
        simp only [BufReader.avail]
        exact drop_take_append_drop st.avail st.cap (i + 1) hic
      have hbuf :
          (BufReader.mk st.cap ((st.avail.take st.cap).drop (i + 1)) (st.avail.drop st.cap)).buf.length
            ≤ st.cap := by
        simp only [List.length_drop]
        omega
      have hlen2 :
          (BufReader.mk st.cap ((st.avail.take st.cap).drop (i + 1)) (st.avail.drop st.cap)).avail.length
            < f := by
        rw [havail]
        simp only [List.length_drop]
        omega
      have hrec := ih _ hbuf hc hlen2
      rw [List.flatten_cons, hrec, havail, List.take_append_drop]
    | none =>
      simp only [hf]
      by_cases hfull : (st.avail.take st.cap).length = st.cap
      · rw [if_pos hfull, if_neg (by simp)]
        have htA : (st.avail.take st.cap).length ≤ st.avail.length := List.length_take_le' _ _
        have havail :
            (BufReader.mk st.cap ([] : List Nat) (st.avail.drop st.cap)).avail
              = st.avail.drop st.cap := by
          simp [BufReader.avail]
        have hlen2 :
            (BufReader.mk st.cap ([] : List Nat) (st.avail.drop st.cap)).avail.length < f := by
          rw [havail]
          simp only [List.length_drop]
          omega
        have hrec := ih (BufReader.mk st.cap ([] : List Nat) (st.avail.drop st.cap))
          (by simp) hc hlen2
        rw [List.flatten_cons]
        show st.avail.take st.cap ++
            (readSliceLoop d f (BufReader.mk st.cap ([] : List Nat) (st.avail.drop st.cap))).flatten
          = st.avail
        rw [hrec, havail, List.take_append_drop]
      · rw [if_neg hfull, if_pos rfl]
        have hAlt : st.avail.length < st.cap := by
          rw [List.length_take] at hfull
          omega
        simp [List.take_of_length_le (Nat.le_of_lt hAlt)]

theorem readLineLoop_eq_map :
    ∀ (fuel : Nat) (st : BufReader),
      readLineLoop fuel st
        = (readSliceLoop 10 fuel st).map (fun t => (dropNL t, lineTerm t)) := by
  intro fuel
  induction fuel with
  | zero => intro st; rfl
  | succ f ih =>
    intro st
    simp only [readLineLoop, readSliceLoop]
    by_cases h : (st.ReadSlice 10).1.2 = some StreamErr.endOfStream
    · rw [if_pos h, if_pos h]
      rfl
    · rw [if_neg h, if_neg h]
      simp [ih]

theorem writeAll_coalesce :
    ∀ (ws : List (List Nat)) (c : Nat) (b : List Nat) (sc : List (List Nat)),
      b.length + ws.flatten.length ≤ c →
      BufWriter.writeAll ⟨c, b, sc⟩ ws = ⟨c, b ++ ws.flatten, sc⟩ := by
  intro ws
  induction ws with
  | nil => intro c b sc _; simp [BufWriter.writeAll]
  | cons bs rest ih =>
    intro c b sc h
    simp only [List.flatten_cons, List.length_append] at h
    have h1 : ¬ (c < bs.length) := by omega
    have h2 : bs.length ≤ c - b.length := by omega
    simp only [BufWriter.writeAll, BufWriter.Write]
    rw [if_neg h1, if_pos h2]
    have hrec := ih c (b ++ bs) sc (by simp only [List.length_append]; omega)
    show BufWriter.writeAll ⟨c, b ++ bs, sc⟩ rest = ⟨c, b ++ (bs ++ rest.flatten), sc⟩
    rw [hrec, List.append_assoc]

theorem pipeReads_flatten :
    ∀ (cs : List Nat) (data : List Nat),
      (pipeReads data cs).flatten = data.take cs.sum := by
  intro cs
  induction cs with
  | nil => intro data; simp [pipeReads]
  | cons c cs ih =>
    intro data
    simp only [pipeReads, List.flatten_cons, ih, List.sum_cons]
    rw [List.take_add]

theorem scanAll_nil : ∀ (fuel : Nat), scanAll fuel [] = [] := by
  intro fuel
  cases fuel with
  | zero => rfl
  | succ f => simp [scanAll, scanLinesSplit]

theorem scanAll_eq_linesOf :
    ∀ (fuel : Nat) (data : List Nat),
      scanAll fuel data = (linesOf fuel data).map dropCR := by
  intro fuel
  induction fuel with
  | zero => intro data; rfl
  | succ f ih =>
    intro data
    by_cases hd : data = []
    · subst hd; simp [scanAll, linesOf, scanLinesSplit]
    · simp only [scanAll, linesOf, scanLinesSplit]
      rw [if_neg (by simp [hd]), if_neg hd]
      cases hf : firstIdx 10 data with
      | some i =>
        simp only [hf]
        simp [ih]
      | none =>
        simp only [hf]
        simp [List.drop_length, scanAll_nil]

theorem linesOf_no_nl :
    ∀ (fuel : Nat) (data t : List Nat), t ∈ linesOf fuel data → (10 : Nat) ∉ t := by
  intro fuel
  induction fuel with
  | zero => intro data t h; simp [linesOf] at h
  | succ f ih =>
    intro data t h
    by_cases hd : data = []
    · subst hd; simp [linesOf] at h
    · simp only [linesOf] at h
      rw [if_neg hd] at h
      cases hf : firstIdx 10 data with
      | some i =>
        simp only [hf] at h
        rcases List.mem_cons.mp h with h1 | h2
        · subst h1; exact firstIdx_not_mem_take hf
        · exact ih _ _ h2
      | none =>
        simp only [hf] at h
        have ht : t = data := by simpa using h
        subst ht
        exact firstIdx_none_not_mem hf

theorem mem_dropCR {a : Nat} {l : List Nat} (h : a ∈ dropCR l) : a ∈ l := by
  unfold dropCR at h
  by_cases hc : l.getLast? = some 13
  · rw [if_pos hc] at h
    exact List.dropLast_subset l h
  · rwa [if_neg hc] at h

theorem Peek_snd (st : BufReader) (n : Nat) : (st.Peek n).2 = st.fill := by
  simp only [BufReader.Peek]
  split
  · rfl
  · split <;> rfl

theorem fill_cap (st : BufReader) : st.fill.cap = st.cap := rfl

/-! ### Claim theorems -/

/-- C1: Buffered Writer coalescing — for every sequence of `Write` calls
whose cumulative buffered bytes stay at or below the capacity, no
sink-write call occurs and all bytes stay buffered; in particular the
capacity-3 writer receiving "a","b","c","d" as four 1-byte writes issues no
sink call through the third write, exactly one sink write of "abc"
triggered by the fourth write (leaving "d" buffered), and a subsequent
`Flush` issues a second sink write of exactly "d". -/
theorem writer_coalescing (c : Nat) (ws : List (List Nat))
    (h : ws.flatten.length ≤ c) :
    ((mkWriter c).writeAll ws = ⟨c, ws.flatten, []⟩)
    ∧ ((mkWriter 3).writeAll [[97], [98], [99]] = ⟨3, [97, 98, 99], []⟩)
    ∧ ((mkWriter 3).writeAll [[97], [98], [99], [100]] = ⟨3, [100], [[97, 98, 99]]⟩)
    ∧ (((mkWriter 3).writeAll [[97], [98], [99], [100]]).Flush
        = ⟨3, [], [[97, 98, 99], [100]]⟩) := by
  refine ⟨?_, by decide, by decide, by decide⟩
  have hw := writeAll_coalesce ws c [] [] (by simpa using h)
  simpa [mkWriter] using hw

/-- Witness for `writer_coalescing` at capacity 4 and writes [1,2],[3]. -/
theorem writer_coalescing_witness :
    (mkWriter 4).writeAll [[1, 2], [3]] = ⟨4, [1, 2, 3], []⟩ := by
  have h := writer_coalescing 4 [[1, 2], [3]] (by decide)
  simpa using h.1

/-- C2 (counterexample): with a capacity-3 reader over the delimiter-free
five-byte source [1,2,3,4,5], the very first `ReadSlice` call fails with
`bufferFull`, so the loop that stops at the first error of any kind
collects only the three buffered bytes and its concatenation does not
reconstruct the original sequence. -/
theorem readSlice_strict_loop_counterexample :
    readSliceLoopStrict 0 9 ⟨3, [], [1, 2, 3, 4, 5]⟩ = [[1, 2, 3]]
    ∧ (BufReader.ReadSlice ⟨3, [], [1, 2, 3, 4, 5]⟩ 0).1.2 = some StreamErr.bufferFull
    ∧ (readSliceLoopStrict 0 9 ⟨3, [], [1, 2, 3, 4, 5]⟩).flatten ≠ [1, 2, 3, 4, 5] := by
  decide

/-- C2 (amended): a `ReadSlice` re-invocation loop that resumes after the
recoverable `bufferFull` partial results and stops only at `endOfStream`
reconstructs the exact original byte sequence as the concatenation of every
returned slice, for any input, any delimiter and any positive capacity; and
`ReadSlice '.'` over the source "a.b.c" yields the successive tokens "a.",
"b.", then fails with `endOfStream` returning "c". -/
theorem readSlice_roundTrip (input : List Nat) (d c fuel : Nat)
    (hc : 0 < c) (hfuel : input.length < fuel) :
    ((readSliceLoop d fuel ⟨c, [], input⟩).flatten = input)
    ∧ (readSliceLoop 46 9 ⟨16, [], [97, 46, 98, 46, 99]⟩ = [[97, 46], [98, 46], [99]])
    ∧ ((BufReader.ReadSlice ⟨16, [], [97, 46, 98, 46, 99]⟩ 46).1 = ([97, 46], none))
    ∧ (((((⟨16, [], [97, 46, 98, 46, 99]⟩ : BufReader).ReadSlice 46).2.ReadSlice
          46).2.ReadSlice 46).1 = ([99], some StreamErr.endOfStream)) := by
  refine ⟨?_, by decide, by decide, by decide⟩
  have h := readSliceLoop_flatten d fuel ⟨c, [], input⟩ (by simp) hc
    (by simpa [BufReader.avail] using hfuel)
  simpa [BufReader.avail] using h

/-- Witness for `readSlice_roundTrip` at a concrete input. -/
theorem readSlice_roundTrip_witness :
    (readSliceLoop 0 4 ⟨2, [], [7, 0, 8]⟩).flatten = [7, 0, 8] :=
  (readSlice_roundTrip [7, 0, 8] 0 2 4 (by decide) (by decide)).1

/-- C3: `Peek n` outcome trichotomy, in priority order — within capacity
with at least `n` reachable unconsumed bytes the first `n` bytes are
returned; `n` beyond the capacity fails with `bufferFull`; an exhausted
source fails with `endOfStream` while returning whatever bytes were
available.  The spec's example scenario at capacity 10 over "abcdef" is
included. -/
theorem peek_trichotomy (st : BufReader) (n : Nat) (hb : st.buf.length ≤ st.cap) :
    (n ≤ st.cap → n ≤ st.avail.length → (st.Peek n).1 = (st.avail.take n, none))
    ∧ (st.cap < n → (st.Peek n).1.2 = some StreamErr.bufferFull)
    ∧ (n ≤ st.cap → st.avail.length < n →
        (st.Peek n).1 = (st.avail, some StreamErr.endOfStream))
    ∧ (((⟨10, [], [97, 98, 99, 100, 101, 102]⟩ : BufReader).Peek 3).1
        = ([97, 98, 99], none))
    ∧ (((⟨10, [], [97, 98, 99, 100, 101, 102]⟩ : BufReader).Peek 20).1.2
        = some StreamErr.bufferFull) := by
  refine ⟨?_, ?_, ?_, by decide, by decide⟩
  · intro h1 h2
    unfold BufReader.Peek
    rw [fill_eq st hb, if_neg (by omega)]
    have hlen : n ≤ (st.avail.take st.cap).length := by
      rw [List.length_take]
      omega
    rw [if_pos hlen]
    show ((st.avail.take st.cap).take n, none) = (st.avail.take n, none)
    rw [List.take_take, Nat.min_eq_left h1]
  · intro h1
    unfold BufReader.Peek
    rw [fill_eq st hb, if_pos h1]
  · intro h1 h2
    unfold BufReader.Peek
    rw [fill_eq st hb, if_neg (by omega)]
    have hlen : ¬ (n ≤ (st.avail.take st.cap).length) := by
      rw [List.length_take]
      omega
    rw [if_neg hlen]
    show (st.avail.take st.cap, some StreamErr.endOfStream)
        = (st.avail, some StreamErr.endOfStream)
    rw [List.take_of_length_le (by omega)]

/-- Witness for `peek_trichotomy` at capacity 5 over [1,2,3], peeking 2. -/
theorem peek_trichotomy_witness :
    ((⟨5, [], [1, 2, 3]⟩ : BufReader).Peek 2).1 = ([1, 2], none) := by
  have h := peek_trichotomy ⟨5, [], [1, 2, 3]⟩ 2 (by decide)
  have h2 := h.1 (by decide) (by decide)
  simpa [BufReader.avail] using h2

/-- C4: oversized write bypass — a `Write` whose payload exceeds the
capacity first flushes any pending buffered bytes (when non-empty) and then
writes the payload directly to the sink bypassing the buffer, producing one
sink call for the pending data and one for the oversized payload, and no
byte is dropped or truncated. -/
theorem write_oversized (w : BufWriter) (bs : List Nat) (h : w.cap < bs.length) :
    ((w.Write bs).sinkCalls
        = w.sinkCalls ++ (if w.buf = [] then [bs] else [w.buf, bs]))
    ∧ ((w.Write bs).buf = [])
    ∧ ((w.Write bs).sinkCalls.flatten ++ (w.Write bs).buf
        = w.sinkCalls.flatten ++ (w.buf ++ bs)) := by
  by_cases hbuf : w.buf = []
  · simp [BufWriter.Write, BufWriter.Flush, h, hbuf, List.flatten_append]
  · simp [BufWriter.Write, BufWriter.Flush, h, hbuf, List.flatten_append,
      List.append_assoc]

/-- Witness for `write_oversized`: capacity 2, pending byte 5, payload
[1,2,3]. -/
theorem write_oversized_witness :
    (BufWriter.Write ⟨2, [5], [[9]]⟩ [1, 2, 3]).sinkCalls = [[9], [5], [1, 2, 3]]
    ∧ (BufWriter.Write ⟨2, [5], [[9]]⟩ [1, 2, 3]).buf = [] := by
  have h := write_oversized ⟨2, [5], [[9]]⟩ [1, 2, 3] (by decide)
  exact ⟨by simpa using h.1, h.2.1⟩

/-- C5: `ReadSlice` buffer-full case — when the delimiter does not occur in
the filled buffer and the buffer is full, the call fails with `bufferFull`,
returns all currently buffered bytes, and advances the read cursor past
them, so the remaining reachable bytes are exactly the original ones with
the returned bytes removed and scanning can resume from the next byte. -/
theorem readSlice_bufferFull (st : BufReader) (d : Nat)
    (hb : st.buf.length ≤ st.cap)
    (hfull : st.cap ≤ st.avail.length)
    (hnd : d ∉ st.avail.take st.cap) :
    ((st.ReadSlice d).1 = (st.avail.take st.cap, some StreamErr.bufferFull))
    ∧ ((st.ReadSlice d).2.avail = st.avail.drop st.cap) := by
  have hn := firstIdx_of_not_mem hnd
  have hlen : (st.avail.take st.cap).length = st.cap := by
    rw [List.length_take]
    omega
  rw [ReadSlice_eq st d hb]
  simp only [hn]
  rw [if_pos hlen]
  exact ⟨rfl, by simp [BufReader.avail]⟩

/-- Witness for `readSlice_bufferFull`: capacity 3, source [1,2,3,4,5],
delimiter 0. -/
theorem readSlice_bufferFull_witness :
    ((⟨3, [], [1, 2, 3, 4, 5]⟩ : BufReader).ReadSlice 0).1
      = ([1, 2, 3], some StreamErr.bufferFull)
    ∧ ((⟨3, [], [1, 2, 3, 4, 5]⟩ : BufReader).ReadSlice 0).2.avail = [4, 5] := by
  have h := readSlice_bufferFull ⟨3, [], [1, 2, 3, 4, 5]⟩ 0 (by decide) (by decide)
    (by decide)
  exact ⟨by simpa [BufReader.avail] using h.1, by simpa [BufReader.avail] using h.2⟩

/-- C6: `ReadLine` — each call returns the `ReadSlice '\n'` token with its
trailing `"\n"` or `"\r\n"` stripped and all other bytes preserved;
concatenating the yielded lines with their stripped terminators reproduces
the input exactly; and the returned flag is true exactly when the line did
not terminate within buffer capacity (no newline among the next
capacity-many reachable bytes while that many bytes exist). -/
theorem readLine_spec (st : BufReader) (fuel : Nat)
    (hb : st.buf.length ≤ st.cap) (hc : 0 < st.cap)
    (hfuel : st.avail.length < fuel) :
    (((readLineLoop fuel st).map (fun p => p.1 ++ p.2)).flatten = st.avail)
    ∧ (∀ s : BufReader, (s.ReadLine).1.1 = dropNL ((s.ReadSlice 10).1.1))
    ∧ ((st.ReadLine).1.2.1 = true ↔
        (st.cap ≤ st.avail.length ∧ (10 : Nat) ∉ st.avail.take st.cap)) := by
  refine ⟨?_, fun s => rfl, ?_⟩
  · rw [readLineLoop_eq_map]
    have hmap : ∀ ts : List (List Nat),
        ((ts.map (fun t => (dropNL t, lineTerm t))).map
          (fun p : List Nat × List Nat => p.1 ++ p.2)) = ts := by
      intro ts
      induction ts with
      | nil => rfl
      | cons t ts ih =>
        simp only [List.map_cons, ih]
        rw [show dropNL t ++ lineTerm t = t from List.take_append_drop _ _]
    rw [hmap]
    exact readSliceLoop_flatten 10 fuel st hb hc hfuel
  · have hline : (st.ReadLine).1.2.1
        = (match (st.ReadSlice 10).1.2 with
           | some StreamErr.bufferFull => true
           | _ => false) := rfl
    rw [hline, ReadSlice_eq st 10 hb]
    cases hf : firstIdx 10 (st.avail.take st.cap) with
    | some i =>
      simp only [hf]
      simp only [Bool.false_eq_true, false_iff, not_and, not_not]
      intro _
      exact firstIdx_mem hf
    | none =>
      simp only [hf]
      by_cases hfull : (st.avail.take st.cap).length = st.cap
      · rw [if_pos hfull]
        simp only [true_iff]
        have htA : (st.avail.take st.cap).length ≤ st.avail.length :=
          List.length_take_le' _ _
        refine ⟨by omega, firstIdx_none_not_mem hf⟩
      · rw [if_neg hfull]
        simp only [Bool.false_eq_true, false_iff, not_and]
        intro hle _
        rw [List.length_take] at hfull
        omega

/-- Witness for `readLine_spec`: capacity 3 over "ab\r\nc", whose first line
is split by the full buffer before the newline arrives. -/
theorem readLine_spec_witness :
    (((readLineLoop 8 ⟨3, [], [97, 98, 13, 10, 99]⟩).map
        (fun p => p.1 ++ p.2)).flatten) = [97, 98, 13, 10, 99] := by
  have h := readLine_spec ⟨3, [], [97, 98, 13, 10, 99]⟩ 8 (by decide) (by decide)
    (by decide)
  simpa [BufReader.avail] using h.1

/-- C7: Scanner default-split token invariant — every token produced by the
default line split is free of embedded `'\n'`, the token stream is exactly
the `'\n'`-delimited segments of the input with one trailing `'\r'` trimmed
from each (so boundaries occur only at `'\n'`), as the concrete run on
"a\r\n\nb" illustrates. -/
theorem scanner_tokens (input : List Nat) (fuel : Nat) :
    (∀ t, t ∈ scanAll fuel input → (10 : Nat) ∉ t)
    ∧ (scanAll fuel input = (linesOf fuel input).map dropCR)
    ∧ (scanAll 9 [97, 13, 10, 10, 98] = [[97], [], [98]]) := by
  refine ⟨?_, scanAll_eq_linesOf fuel input, by decide⟩
  intro t ht
  rw [scanAll_eq_linesOf] at ht
  rcases List.mem_map.mp ht with ⟨s, hs, rfl⟩
  intro hmem
  exact linesOf_no_nl fuel input s hs (mem_dropCR hmem)

/-- C8: synchronous pipe delivery fidelity — delivering one write's `N`
bytes through any sequence of read chunk sizes hands a prefix of the data
to each read strictly in order, and whenever the requested chunk sizes
cover the payload the concatenation of all reads is exactly the original
byte sequence. -/
theorem pipe_fidelity (data : List Nat) (cs : List Nat)
    (h : data.length ≤ cs.sum) :
    ((pipeReads data cs).flatten = data)
    ∧ (∀ k, ∃ rest, (pipeReads data (cs.take k)).flatten ++ rest = data) := by
  constructor
  · rw [pipeReads_flatten]
    exact List.take_of_length_le h
  · intro k
    refine ⟨data.drop (cs.take k).sum, ?_⟩
    rw [pipeReads_flatten, List.take_append_drop]

/-- Witness for `pipe_fidelity`: five bytes read in chunks of 2, 1, 99. -/
theorem pipe_fidelity_witness :
    (pipeReads [1, 2, 3, 4, 5] [2, 1, 99]).flatten = [1, 2, 3, 4, 5] := by
  have h := pipe_fidelity [1, 2, 3, 4, 5] [2, 1, 99] (by decide)
  exact h.1

/-- C9: `Peek` is non-mutating — a second `Peek n` with no intervening
mutating call returns exactly the same bytes and error and leaves the state
unchanged, and any subsequent `ReadSlice` behaves exactly as it would have
without the preceding `Peek`. -/
theorem peek_nonMutating (st : BufReader) (n : Nat)
    (hb : st.buf.length ≤ st.cap) :
    (((st.Peek n).2.Peek n).1 = (st.Peek n).1)
    ∧ (((st.Peek n).2.Peek n).2 = (st.Peek n).2)
    ∧ (∀ d, (st.Peek n).2.ReadSlice d = st.ReadSlice d) := by
  have hsnd : (st.Peek n).2 = st.fill := Peek_snd st n
  have hidem : st.fill.fill = st.fill := fill_idem st hb
  have hPeek : (st.fill).Peek n = st.Peek n := by
    unfold BufReader.Peek
    rw [hidem, fill_cap]
  have hRS : ∀ d, (st.fill).ReadSlice d = st.ReadSlice d := by
    intro d
    unfold BufReader.ReadSlice
    rw [hidem]
  rw [hsnd, hPeek]
  exact ⟨rfl, hsnd, hRS⟩

/-- Witness for `peek_nonMutating` at capacity 4 over [1,2]. -/
theorem peek_nonMutating_witness :
    (((⟨4, [], [1, 2]⟩ : BufReader).Peek 2).2.Peek 2).1
      = ((⟨4, [], [1, 2]⟩ : BufReader).Peek 2).1 := by
  have h := peek_nonMutating ⟨4, [], [1, 2]⟩ 2 (by decide)
  exact h.1

/-- C10: an over-capacity `Peek` over a source holding at least
capacity-many bytes still returns a partial result of exactly
capacity-many bytes — the buffer is first filled to capacity and those
bytes accompany the `bufferFull` error — never an empty slice. -/
theorem peek_overfull (c n : Nat) (src : List Nat)
    (h1 : c < n) (h2 : c ≤ src.length) :
    (((⟨c, [], src⟩ : BufReader).Peek n).1 = (src.take c, some StreamErr.bufferFull))
    ∧ (((⟨c, [], src⟩ : BufReader).Peek n).1.1.length = c) := by
  have hb : (⟨c, [], src⟩ : BufReader).buf.length ≤ (⟨c, [], src⟩ : BufReader).cap := by
    simp
  have hfst : ((⟨c, [], src⟩ : BufReader).Peek n).1
      = (src.take c, some StreamErr.bufferFull) := by
    unfold BufReader.Peek
    rw [fill_eq _ hb, if_pos h1]
    simp [BufReader.avail]
  refine ⟨hfst, ?_⟩
  rw [hfst]
  simp [List.length_take]
  omega

/-- Witness for `peek_overfull`: capacity 2 over [4,5,6], peeking 7. -/
theorem peek_overfull_witness :
    ((⟨2, [], [4, 5, 6]⟩ : BufReader).Peek 7).1
      = ([4, 5], some StreamErr.bufferFull) := by
  have h := peek_overfull 2 7 [4, 5, 6] (by decide) (by decide)
  simpa using h.1
